import Mathlib

/-!
Verification of the natural-language specification of the
`Startups_email_scrapper` repository against a shallow embedding of its
Python sources (`scraper/extract.py`, `scraper/validate.py`,
`scraper/scrape.py`, `scraper/utils.py`, `scraper/io.py`, `main.py`).

Pure functions are translated directly; the stateful site crawler is
translated as an explicit state-transition loop parameterised by an
environment that supplies the results of network fetches, HTML link
parsing and URL plumbing (`urljoin`, `urlparse(..).path`, `same_domain`),
which in the source are performed by `httpx`, `BeautifulSoup` and
`urllib`/`tldextract`.  The rate limiter is translated with rational
timestamps; cooperative interleaving is represented by splitting
`acquire` at its single `await` point, exactly as in the source.

Python string primitives (`lower`, `strip`, `replace`, `endswith`,
`sorted`, lexicographic `<`) are re-implemented over `List Char` so
that every definition evaluates inside the kernel.
-/

namespace Scraper

/-! ## Generic string helpers (Python string primitives) -/

/-- Substring test on character lists: Python's `pat in s`. -/

def hasSub (pat : List Char) : List Char → Bool
  | [] => pat.isEmpty
  | c :: t => pat.isPrefixOf (c :: t) || hasSub pat t

/-- Python's `pat in s` for strings. -/
def strHasSub (s pat : String) : Bool :=
  hasSub pat.toList s.toList

/-- Python's `s.strip(chars)`: drop the given characters from both ends. -/
def stripCharSet (chars : List Char) (s : String) : String :=
  let l := s.toList.dropWhile (fun c => chars.contains c)
  String.mk ((l.reverse.dropWhile (fun c => chars.contains c)).reverse)

/-- Python's `s.strip()`: drop whitespace from both ends. -/
def strTrim (s : String) : String :=
  let l := s.toList.dropWhile Char.isWhitespace
  String.mk ((l.reverse.dropWhile Char.isWhitespace).reverse)

/-- Python's `s.lower()` (ASCII case folding, as in `Char.toLower`). -/
def strLower (s : String) : String :=
  String.mk (s.toList.map Char.toLower)

/-- Python's `s.endswith(post)`. -/
def strEndsWith (s post : String) : Bool :=
  post.toList.isSuffixOf s.toList

/-- Python's `s.startswith(pre)`. -/
def strStartsWith (s pre : String) : Bool :=
  pre.toList.isPrefixOf s.toList

/-- Replace all non-overlapping occurrences of `pat` (non-empty), left
to right: Python's `s.replace(pat, repl)`. -/
def replaceAux (pat repl : List Char) : Nat → List Char → List Char
  | 0, l => l
  | _ + 1, [] => []
  | fuel + 1, c :: t =>
    if pat ≠ [] ∧ pat.isPrefixOf (c :: t) then
      repl ++ replaceAux pat repl fuel ((c :: t).drop pat.length)
    else
      c :: replaceAux pat repl fuel t

/-- Python's `s.replace(pat, repl)` for non-empty `pat`. -/
def strReplace (s pat repl : String) : String :=
  String.mk (replaceAux pat.toList repl.toList s.toList.length s.toList)

/-- Everything after the first occurrence of `c` (Python `s.split(c, 1)[1]`),
or `""` when `c` is absent. -/
def afterFirstChar (c : Char) (s : String) : String :=
  String.mk (((s.toList).dropWhile (fun x => x ≠ c)).drop 1)

/-- Everything before the first occurrence of `c` (Python `s.split(c, 1)[0]`). -/
def beforeFirstChar (c : Char) (s : String) : String :=
  String.mk ((s.toList).takeWhile (fun x => x ≠ c))

/-- Code-point lexicographic order on character lists (Python `<=` on
strings). -/
def listLe : List Char → List Char → Bool
  | [], _ => true
  | _ :: _, [] => false
  | a :: as, b :: bs => if a = b then listLe as bs else decide (a < b)

/-- Python `a <= b` on strings. -/
def strLe (a b : String) : Bool :=
  listLe a.toList b.toList

/-- Insert into a `strLe`-sorted list. -/
def insertStr (a : String) : List String → List String
  | [] => [a]
  | b :: t => if strLe a b then a :: b :: t else b :: insertStr a t

/-- Python's `sorted` on a list of strings (insertion sort; any sort
agrees on the duplicate-free lists it is applied to). -/
def sortStrings : List String → List String
  | [] => []
  | a :: t => insertStr a (sortStrings t)

/-- Membership in the local-part character class of `EMAIL_RE`
(ASCII letters and digits plus the listed specials, written by
character code). -/
def isLocalChar (c : Char) : Bool :=
  c.isAlpha || c.isDigit ||
    [33, 35, 36, 37, 38, 39, 42, 43, 45, 47, 61, 63, 94, 95, 96,
     123, 124, 126].contains c.toNat

/-- Membership in `[a-z0-9]` under `re.IGNORECASE`. -/
def isHostChar (c : Char) : Bool :=
  c.isAlpha || c.isDigit

/-- Greedy continuation of the local part: zero or more dot-separated
atoms. -/
def localTail : Nat → List Char → List Char × List Char
  | 0, l => ([], l)
  | fuel + 1, l =>
    match l with
    | '.' :: c :: rest =>
      if isLocalChar c then
        let s := (c :: rest).span isLocalChar
        let m := localTail fuel s.2
        ('.' :: (s.1 ++ m.1), m.2)
      else ([], l)
    | _ => ([], l)

/-- One host label: a maximal run of alphanumerics and hyphens starting
with an alphanumeric, with trailing hyphens given back (the regex
backtracks over the optional group so a label always ends in an
alphanumeric). -/
def hostLabel (l : List Char) : Option (List Char × List Char) :=
  match l with
  | [] => none
  | c :: _ =>
    if isHostChar c then
      let run := l.takeWhile (fun x => isHostChar x || x = '-')
      let rest := l.dropWhile (fun x => isHostChar x || x = '-')
      let lab := (run.reverse.dropWhile (fun x => x = '-')).reverse
      let back := (run.reverse.takeWhile (fun x => x = '-')).reverse
      some (lab, back ++ rest)
    else none

/-- Greedy continuation of the host: zero or more dot-separated labels. -/
def hostTail : Nat → List Char → List Char × List Char
  | 0, l => ([], l)
  | fuel + 1, l =>
    match l with
    | '.' :: rest =>
      match hostLabel rest with
      | some (lab, rest2) =>
        let m := hostTail fuel rest2
        ('.' :: (lab ++ m.1), m.2)
      | none => ([], l)
    | _ => ([], l)

/-- Attempt to match `EMAIL_RE` at the head of `l`; on success return
the matched characters and the remaining input. -/
def matchEmailAt (fuel : Nat) (l : List Char) : Option (List Char × List Char) :=
  let s := l.span isLocalChar
  if s.1.isEmpty then none
  else
    let lt := localTail fuel s.2
    match lt.2 with
    | '@' :: rest =>
      match hostLabel rest with
      | some (lab1, rest2) =>
        let ht := hostTail fuel rest2
        if ht.1.isEmpty then none
        else some ((s.1 ++ lt.1) ++ '@' :: (lab1 ++ ht.1), ht.2)
      | none => none
    | _ => none

/-- `re.finditer` scan: leftmost, non-overlapping matches. -/
def findEmailMatches : Nat → List Char → List (List Char)
  | 0, _ => []
  | fuel + 1, l =>
    match l with
    | [] => []
    | _ :: t =>
      match matchEmailAt l.length l with
      | some (m, rest) => m :: findEmailMatches fuel rest
      | none => findEmailMatches fuel t

/-- All `EMAIL_RE` matches of a string, in document order. -/
def emailMatches (s : String) : List String :=
  (findEmailMatches s.toList.length s.toList).map String.mk

/-- `IMAGE_EXT` from `extract.py`. -/
def IMAGE_EXT : List String :=
  [".png", ".jpg", ".jpeg", ".gif", ".svg", ".webp", ".bmp"]

/-- `e.lower().endswith(IMAGE_EXT)`. -/
def isImageName (e : String) : Bool :=
  IMAGE_EXT.any (fun ext => strEndsWith (strLower e) ext)

/-- `e.lower().endswith("@" + domain.lower())`. -/
def endsWithAtDomain (d e : String) : Bool :=
  strEndsWith (strLower e) ("@" ++ strLower d)

/-- The `filtered` set of `extract_emails_from_html`: regex matches,
stripped of surrounding `.,;:`, deduplicated (`set()`), minus image
false positives, with `mailto:` removed and whitespace stripped.  The
Python `set`s are represented as deduplicated lists (first occurrence
kept); every result path ends in `sorted`, so the set iteration order
is irrelevant. -/
def extractFiltered (html : String) : List String :=
  let candidates := ((emailMatches html).map (stripCharSet ['.', ',', ';', ':'])).dedup
  ((candidates.filter (fun e => !isImageName e)).map
      (fun e => strTrim (strReplace e "mailto:" ""))).dedup

/-- `extract_emails_from_html` from `extract.py` (the `if not domain`
guard also covers the falsy empty string). -/
def extract_emails_from_html (html : String) (domain : Option String) : List String :=
  let filtered := extractFiltered html
  match domain with
  | none => sortStrings filtered
  | some d =>
    if d = "" then sortStrings filtered
    else
      let onDom := sortStrings (filtered.filter (endsWithAtDomain d))
      let offDom := sortStrings (filtered.filter
          (fun e => !((onDom.map strLower).contains (strLower e))))
      onDom ++ offDom

/-- `DISPOSABLE_DOMAINS` from `validate.py`. -/
def DISPOSABLE_DOMAINS : List String :=
  ["mailinator.com", "guerrillamail.com", "10minutemail.com",
   "tempmail.com", "yopmail.com"]

/-- `GENERIC_PREFIXES` from `validate.py`. -/
def GENERIC_PREFIXES : List String :=
  ["info", "hello", "contact", "hi", "support", "team", "careers", "jobs"]

/-- Python `"@" in e`. -/
def strContainsChar (s : String) (c : Char) : Bool :=
  s.toList.contains c

/-- `filter_emails_basic` from `validate.py`: drop entries without `@`
and entries whose part after the first `@` is a disposable domain;
surviving entries are appended whitespace-stripped.  The `domain`
argument exists in the source signature but is unused by its body. -/
def filter_emails_basic (emails : List String) (domain : Option String) : List String :=
  emails.foldl (fun out e =>
    if !(strContainsChar e '@') then out
    else if DISPOSABLE_DOMAINS.contains (strLower (afterFirstChar '@' e)) then out
    else out ++ [strTrim e]) []

/-- `dedupe_keep_order` from `validate.py`: keep the first occurrence of
each case-insensitive key. -/
def dedupe_keep_order (items : List String) : List String :=
  (items.foldl (fun acc x =>
      let k := strLower x
      if acc.2.contains k then acc else (acc.1 ++ [x], acc.2 ++ [k])) ([], [])).1

/-- Python `Dict[str, str]` lookup (`m.get(k)`), with dicts represented
as association lists whose first binding wins. -/
def lookupVal (m : List (String × String)) (k : String) : Option String :=
  (m.find? (fun p => p.1 == k)).map Prod.snd

/-- `e.split("@", 1)[0].lower()`. -/
def localOf (e : String) : String :=
  strLower (beforeFirstChar '@' e)

/-- Split on a separator character, Python `s.split(c)` (always at
least one piece). -/
def splitList (c : Char) : List Char → List (List Char)
  | [] => [[]]
  | x :: t =>
    let r := splitList c t
    if x = c then [] :: r
    else
      match r with
      | [] => [[x]]
      | h :: t2 => (x :: h) :: t2

/-- Python `s.split(c)` on strings. -/
def splitOnChar (c : Char) (s : String) : List String :=
  (splitList c s.toList).map String.mk

/-- `"." in local and all(part for part in local.split("."))` applied to
the (lowercased) local part of an email. -/
def dottedLocal (e : String) : Bool :=
  let loc := localOf e
  strHasSub loc "." && (splitOnChar '.' loc).all (fun p => p ≠ "")

/-- `assess_confidence` from `validate.py`.  The hunter-verification
dict is represented by the only field the scorer inspects: a map from
email to the verdict's `result` string (an email whose verdict is
missing, falsy, or lacks `result == "valid"` simply has no `"valid"`
entry).  Each Python `for`-loop with an early `return` is a
`List.find?`. -/
def assess_confidence (emails : List String)
    (hunter_verification : List (String × String))
    (emails_by_source : List (String × String)) : String × String :=
  match emails.find? (fun e => lookupVal hunter_verification e == some "valid") with
  | some e => ("high", (lookupVal emails_by_source e).getD "page")
  | none =>
    match emails.find? (fun e => lookupVal emails_by_source e == some "apollo") with
    | some _ => ("high", "apollo")
    | none =>
      match emails.find? (fun e => lookupVal emails_by_source e == some "page" &&
          (dottedLocal e || !(GENERIC_PREFIXES.contains (localOf e)))) with
      | some _ => ("medium", "page")
      | none =>
        match emails with
        | [] => ("low", "serp")
        | e0 :: _ => ("low", (lookupVal emails_by_source e0).getD "page")

/-- The cleaned email list of `main.py` line 106. -/
def finalizeEmails (emails_by_source : List (String × String))
    (domain : Option String) : List String :=
  dedupe_keep_order (filter_emails_basic (emails_by_source.map Prod.fst) domain)

/-- The pair (cleaned email list, evidence map) that `main.py` passes to
`assess_confidence` and stores in the result record: the evidence map
flows through unchanged. -/
def finalizeEvidence (emails_by_source : List (String × String))
    (domain : Option String) : List String × List (String × String) :=
  (finalizeEmails emails_by_source domain, emails_by_source)

/-- `merge_checkpoint` from `io.py`. -/
def merge_checkpoint (df : List String) (chk : List (String × String)) : List String :=
  if chk.isEmpty then df
  else
    let processed := chk.map (fun r => (strTrim r.1, strTrim r.2))
    df.filter (fun name => !(processed.contains (strTrim name, "")))

/-- `KEYWORDS` from `scrape.py` (a Python `set`; its iteration order
only affects the order of the seed URLs, never the properties proved
below). -/
def KEYWORDS : List String :=
  ["contact", "about", "team", "people", "career", "careers", "join",
   "recruit", "jobs"]

/-- The crawl's environment: the target domain, the budgets from
`Settings`, and oracles for the network and URL plumbing.
`robots = none` models a missing/unfetchable robots.txt (including the
source's `NameError` path where `txt` is unbound), `robots = some f`
a parsed robots.txt with `f = can_fetch(user_agent, ·)`.
`fetchText u = none` models `fetch_text` raising. `hrefs h` is the list
of (stripped) `a[href]` attribute values BeautifulSoup finds in the
page text `h`, in document order. -/
structure CrawlEnv where
  domain : String
  maxPages : Nat
  maxDepth : Nat
  robots : Option (String → Bool)
  fetchText : String → Option String
  hrefs : String → List String
  urljoin : String → String → String
  pathOf : String → String
  sameDomain : String → Bool

/-- `https://{domain}/`. -/
def CrawlEnv.baseUrl (env : CrawlEnv) : String :=
  "https://" ++ env.domain ++ "/"

/-- `any(k in path for k in KEYWORDS) or path in ("/", "")` applied to
`urlparse(u).path.lower()`. -/
def keywordPath (env : CrawlEnv) (u : String) : Bool :=
  let path := strLower (env.pathOf u)
  KEYWORDS.any (fun k => strHasSub path k) || path == "/" || path == ""

/-- `enqueue_candidates` from `scrape.py`: the closure appends
`(u, 0)` for every offered URL that is not in `seen`, is on-domain and
has a keyword or root path.  `seen` is read but never written inside
the loop, so duplicates inside one `urls` batch are appended twice. -/
def enqueue_candidates (env : CrawlEnv) (seen : List String)
    (urls : List String) (q : List (String × Nat)) : List (String × Nat) :=
  urls.foldl (fun q u =>
    if seen.contains u then q
    else if !env.sameDomain u then q
    else if keywordPath env u then q ++ [(u, 0)]
    else q) q

/-- `CrawlState` from the spec's data model: queue, seen set, email
set, notes, `pages_visited`, plus the fetch-attempt log. -/
structure CrawlState where
  q : List (String × Nat)
  seen : List String
  emails : List String
  notes : List String
  pagesVisited : Nat
  fetches : List String

/-- Set-union update for the accumulated email/seen sets (Python
`set.update`), keeping first occurrences. -/
def setUpdate (s : List String) (new : List String) : List String :=
  new.foldl (fun s e => if s.contains e then s else s ++ [e]) s

/-- `robots and txt is not None and not robots.can_fetch(ua, url)`. -/
def robotsDisallows (env : CrawlEnv) (url : String) : Bool :=
  match env.robots with
  | some canFetch => !canFetch url
  | none => false

/-- The successful-fetch part of the loop body (lines 88–102): count
the page, union in the extracted emails, enqueue kept links, mark all
offered links as seen. -/
def crawlFetched (env : CrawlEnv) (st : CrawlState) (url : String)
    (rest : List (String × Nat)) (html : String) : CrawlState :=
  let links := (((env.hrefs html).map strTrim).filter
      (fun h => !(strStartsWith h "#" || strStartsWith h "mailto:"))).map
      (env.urljoin url)
  { st with
      q := enqueue_candidates env st.seen links rest,
      seen := setUpdate st.seen links,
      emails := setUpdate st.emails
        (extract_emails_from_html html (some env.domain)),
      pagesVisited := st.pagesVisited + 1,
      fetches := st.fetches ++ [url] }

/-- The loop body for the dequeued pair `(url, depth)` (lines 70–106):
depth cutoff, per-URL robots re-check, fetch (logging the attempt),
then `crawlFetched`. -/
def crawlProcess (env : CrawlEnv) (st : CrawlState) (url : String)
    (depth : Nat) (rest : List (String × Nat)) : CrawlState :=
  if env.maxDepth < depth then { st with q := rest }
  else if robotsDisallows env url then
    { st with q := rest, notes := st.notes ++ ["robots_disallow:" ++ url] }
  else
    match env.fetchText url with
    | none =>
      { st with q := rest,
                notes := st.notes ++ ["fetch_error:" ++ url],
                fetches := st.fetches ++ [url] }
    | some html => crawlFetched env st url rest html

/-- One iteration of the `while` loop of `crawl_site_for_emails`
(lines 69–106), for a non-empty queue. -/
def crawlStep (env : CrawlEnv) (st : CrawlState) : CrawlState :=
  match st.q with
  | [] => st
  | (url, depth) :: rest => crawlProcess env st url depth rest

/-- `while q and pages_visited < settings.max_pages_per_site`, run for
at most `fuel` iterations (the source loop terminates because every
iteration pops the queue and only budgeted successful fetches push;
all properties below hold for every `fuel`). -/
def crawlLoop (env : CrawlEnv) : Nat → CrawlState → CrawlState
  | 0, st => st
  | fuel + 1, st =>
    if st.q ≠ [] ∧ st.pagesVisited < env.maxPages then
      crawlLoop env fuel (crawlStep env st)
    else st

/-- The seeding of lines 61–66: `enqueue_candidates([base_url] +
[urljoin(base_url, f"/{k}") for k in KEYWORDS], q)` into an empty
queue, then `seen.update(u for u, _ in q)`. -/
def crawlInit (env : CrawlEnv) : CrawlState :=
  let seeds := env.baseUrl :: KEYWORDS.map (fun k => env.urljoin env.baseUrl ("/" ++ k))
  let q0 := enqueue_candidates env [] seeds []
  { q := q0, seen := q0.map Prod.fst, emails := [], notes := [],
    pagesVisited := 0, fetches := [] }

/-- `crawl_site_for_emails` (robots-root gate, seeding, loop, final
`sorted(emails)`), returning `(emails, notes)`. -/
def crawl_site_for_emails (env : CrawlEnv) (fuel : Nat) : List String × List String :=
  if robotsDisallows env env.baseUrl then
    ([], ["robots_disallow:root"])
  else
    let final := crawlLoop env fuel (crawlInit env)
    (sortStrings final.emails, final.notes)

/-- Valid `urllib` scheme: a letter followed by letters, digits,
`+`, `-`, `.`. -/
def validScheme (l : List Char) : Bool :=
  match l with
  | [] => false
  | c :: t => c.isAlpha && t.all (fun x => x.isAlpha || x.isDigit ||
      x = '+' || x = '-' || x = '.')

/-- The URL after stripping a valid `scheme:` prefix (otherwise
unchanged). -/
def afterScheme (s : String) : List Char :=
  let pre := s.toList.takeWhile (fun c => c ≠ ':')
  match s.toList.dropWhile (fun c => c ≠ ':') with
  | [] => s.toList
  | _ :: tail => if validScheme pre then tail else s.toList

/-- `urlparse(s).netloc`: present only when `//` follows the scheme,
ending before the first `/`, `?` or `#`. -/
def netlocOf (s : String) : List Char :=
  let r := afterScheme s
  if r.take 2 = ['/', '/'] then
    (r.drop 2).takeWhile (fun c => c ≠ '/' && c ≠ '?' && c ≠ '#')
  else []

/-- `urlparse(s).hostname` (or `""` for Python's `None`): netloc minus
userinfo (before the last `@`) and port (after the first `:`),
lowercased. -/
def hostnameOf (s : String) : String :=
  let nl := netlocOf s
  let afterUser := (nl.reverse.takeWhile (fun c => c ≠ '@')).reverse
  strLower (String.mk (afterUser.takeWhile (fun c => c ≠ ':')))

/-- `".".join`. -/
def joinDots : List String → String
  | [] => ""
  | [x] => x
  | x :: t => x ++ "." ++ joinDots t

/-- Longest label-suffix of `labels` whose dot-join is in the
public-suffix list: returns `(leading labels, suffix labels)`. -/
def longestSuffix (psl : List String) : List String → List String × List String
  | [] => ([], [])
  | x :: t =>
    if psl.contains (joinDots (x :: t)) then ([], x :: t)
    else
      let r := longestSuffix psl t
      (x :: r.1, r.2)

/-- `tldextract.extract(host)` restricted to the fields the source
reads: `(ext.domain, ext.suffix)`.  With no suffix match the domain is
the last label (tldextract's behaviour for e.g. `localhost`). -/
def tldParts (psl : List String) (host : String) : String × String :=
  let labels := splitOnChar '.' host
  let r := longestSuffix psl labels
  ((r.1.getLastD ""), joinDots r.2)

/-- `normalize_domain` from `utils.py` (public-suffix list passed
explicitly; the `None` input case of `Optional[str]` coincides with
`""`). -/
def normalize_domain (psl : List String) (url_or_domain : String) : Option String :=
  if url_or_domain = "" then none
  else
    let s := strTrim url_or_domain
    if s = "" then none
    else
      let s2 := if strHasSub s "://" then s else "http://" ++ s
      let host := hostnameOf s2
      if host = "" then none
      else
        let ext := tldParts psl host
        if ext.1 = "" || ext.2 = "" then none
        else some (joinDots (([ext.1, ext.2]).filter (fun p => p ≠ "")))

/-- The concrete public-suffix entries used by the examples below (a
fragment of the list `tldextract` bundles). -/
def samplePsl : List String :=
  ["com", "org", "net", "ai", "io", "uk", "co.uk"]

/-- `while self.timestamps and now - self.timestamps[0] > 60: popleft`. -/
def pruneQ (now : ℚ) (dq : List ℚ) : List ℚ :=
  dq.dropWhile (fun ts => decide (60 < now - ts))

/-- The atomic prefix of `RateLimiter.acquire`: prune, then either
admit immediately (`none`) or compute the wake-up time
`now + (60 - (now - timestamps[0]) + 0.01)` (`some wake`). -/
def acquireCheck (per_minute : Nat) (now : ℚ) (dq : List ℚ) :
    List ℚ × Option ℚ :=
  let dq2 := pruneQ now dq
  if per_minute ≤ dq2.length then
    (dq2, some (now + (60 - (now - dq2.headD 0)) + 1 / 100))
  else (dq2, none)

/-- The atomic suffix of `acquire`: `self.timestamps.append(time.monotonic())`,
with the clock reading `t`. -/
def recordTimestamp (dq : List ℚ) (t : ℚ) : List ℚ :=
  dq ++ [t]

/-- `RateLimiter.__init__`: the budget is clamped to `max(1, per_minute)`
and the deque starts empty. -/
structure RateLimiter where
  per_minute : ℤ
  timestamps : List ℚ

/-- `RateLimiter(per_minute)`. -/
def RateLimiter.init (per_minute : ℤ) : RateLimiter :=
  { per_minute := max 1 per_minute, timestamps := [] }

/-- One sequential `acquire`: the caller invokes it `d ≥ 0` seconds
after the previous completion; the completion time is `now` when under
budget, else the wake-up time (at which the post-sleep timestamp is
taken).  State: (completions so far, last completion time, deque). -/
def seqStep (per_minute : Nat) (st : List ℚ × ℚ × List ℚ) (d : ℚ) :
    List ℚ × ℚ × List ℚ :=
  let now := st.2.1 + d
  match acquireCheck per_minute now st.2.2 with
  | (dq2, none) => (st.1 ++ [now], now, recordTimestamp dq2 now)
  | (dq2, some wake) => (st.1 ++ [wake], wake, recordTimestamp dq2 wake)

/-- A sequence of sequential `acquire` calls separated by the given
delays, starting at time 0 with an empty deque. -/
def seqRun (per_minute : Nat) (delays : List ℚ) : List ℚ × ℚ × List ℚ :=
  delays.foldl (seqStep per_minute) ([], 0, [])

/-- The completion times of the sequential call sequence. -/
def seqCompletions (per_minute : Nat) (delays : List ℚ) : List ℚ :=
  (seqRun per_minute delays).1

/-- The claim's reading of `assess_confidence`: rule 1 fires on the
first email with a `valid` verifier verdict, rule 2 on any
apollo-sourced email, rule 3 on any page-sourced email that is dotted
(all dot-separated segments of the local part non-empty) or whose
local part is outside the generic set, rule 4 on a non-empty list,
rule 5 otherwise. -/
def specAssessConfidence (emails : List String)
    (hunter_verification emails_by_source : List (String × String)) :
    String × String :=
  if emails.any (fun e => lookupVal hunter_verification e == some "valid") then
    ("high", (lookupVal emails_by_source
      ((emails.find? (fun e => lookupVal hunter_verification e == some "valid")).getD
        "")).getD "page")
  else if emails.any
      (fun e => (lookupVal emails_by_source e).getD "page" == "apollo") then
    ("high", "apollo")
  else if emails.any (fun e => ((lookupVal emails_by_source e).getD "page" == "page") &&
      (dottedLocal e || !(GENERIC_PREFIXES.contains (localOf e)))) then
    ("medium", "page")
  else if !emails.isEmpty then
    ("low", (lookupVal emails_by_source (emails.headD "")).getD "page")
  else
    ("low", "serp")

/-- A site `d` whose root page links once to `https://d/contact2`; the
keyword seed URLs are off-domain under `sameDomain` so that only the
root is seeded.  Hrefs are absolute, so `urljoin` returns its second
argument. -/
def env1 : CrawlEnv where
  domain := "d"
  maxPages := 5
  maxDepth := 2
  robots := none
  fetchText := fun u => if u == "https://d/" then some "rootpage" else some ""
  hrefs := fun h => if h == "rootpage" then ["https://d/contact2"] else []
  urljoin := fun _ h => h
  pathOf := fun u => String.mk (u.toList.drop 9)
  sameDomain := fun u => u == "https://d/" || u == "https://d/contact2"

/-- A site where every page fetch fails (`fetch_text` raises) and every
URL is on-domain, with a budget of one page. -/
def env2 : CrawlEnv where
  domain := "d"
  maxPages := 1
  maxDepth := 2
  robots := none
  fetchText := fun _ => none
  hrefs := fun _ => []
  urljoin := fun _ h => "https://d" ++ h
  pathOf := fun u => String.mk (u.toList.drop 9)
  sameDomain := fun _ => true

/-- A site whose root page offers the same link twice in one batch
(e.g. a nav and a footer link to the same page). -/
def env3 : CrawlEnv where
  domain := "d"
  maxPages := 3
  maxDepth := 2
  robots := none
  fetchText := fun u => if u == "https://d/" then some "rootpage" else some "leaf"
  hrefs := fun h => if h == "rootpage" then
      ["https://d/contact2", "https://d/contact2"] else []
  urljoin := fun _ h => h
  pathOf := fun u => String.mk (u.toList.drop 9)
  sameDomain := fun u => u == "https://d/" || u == "https://d/contact2"

/-- Evidence map of a company whose crawl found a disposable-domain
address next to a regular one. -/
def evidence5 : List (String × String) :=
  [("a@mailinator.com", "page"), ("jane.doe@x.com", "page")]

/-- Characters that may appear in a value returned by
`normalize_domain`: not a path or port separator, and fixed by
lowercasing. -/
def CharOk (c : Char) : Prop :=
  c ≠ '/' ∧ c ≠ ':' ∧ c.toLower = c

/-- Any `per_minute + 1` successive completions span strictly more than
60 seconds. -/
def GapOk (per_minute : Nat) (T : List ℚ) : Prop :=
  ∀ i, (h : i + per_minute < T.length) → T[i] + 60 < T[i + per_minute]

/-- Invariant of the sequential `acquire` semantics: completions are
nondecreasing and bounded by the clock, the deque consists of the
completions above some cut at most `clock - 60`, and the gap property
holds. -/
def SeqInv (per_minute : Nat) (st : List ℚ × ℚ × List ℚ) : Prop :=
  List.Pairwise (fun a b => a ≤ b) st.1
  ∧ (∀ t ∈ st.1, t ≤ st.2.1)
  ∧ (∃ c, c ≤ st.2.1 - 60 ∧ st.2.2 = st.1.filter (fun ts => decide (c ≤ ts)))
  ∧ GapOk per_minute st.1

theorem listLe_total (a b : List Char) : listLe a b || listLe b a := by
  induction a generalizing b with
  | nil => simp [listLe]
  | cons x xs ih =>
    cases b with
    | nil => simp [listLe]
    | cons y ys =>
      by_cases hxy : x = y
      · subst hxy
        simpa [listLe] using ih ys
      · have hne : y ≠ x := fun h => hxy h.symm
        have : x < y ∨ y < x := by
          rcases lt_or_gt_of_ne (show x ≠ y from hxy) with h | h
          · exact Or.inl h
          · exact Or.inr h
        simp only [listLe, if_neg hxy, if_neg hne]
        rcases this with h | h
        · simp [h]
        · simp [h]

theorem strLe_total (a b : String) : strLe a b || strLe b a :=
  listLe_total a.toList b.toList

theorem listLe_trans {a b c : List Char} (hab : listLe a b) (hbc : listLe b c) :
    listLe a c := by
  induction a generalizing b c with
  | nil => simp [listLe]
  | cons x xs ih =>
    cases b with
    | nil => simp [listLe] at hab
    | cons y ys =>
      cases c with
      | nil => simp [listLe] at hbc
      | cons z zs =>
        by_cases hxy : x = y
        · subst hxy
          by_cases hyz : x = z
          · subst hyz
            simp only [listLe, if_pos rfl] at hab hbc ⊢
            exact ih hab hbc
          · simp only [listLe, if_pos rfl] at hab
            simp only [listLe, if_neg hyz] at hbc ⊢
            exact hbc
        · by_cases hyz : y = z
          · subst hyz
            simp only [listLe, if_neg hxy] at hab ⊢
            exact hab
          · simp only [listLe, if_neg hxy] at hab
            simp only [listLe, if_neg hyz] at hbc
            have hxz : x < z := lt_trans (of_decide_eq_true hab) (of_decide_eq_true hbc)
            have : x ≠ z := ne_of_lt hxz
            simp [listLe, if_neg this, hxz]

theorem strLe_trans {a b c : String} (hab : strLe a b) (hbc : strLe b c) :
    strLe a c :=
  listLe_trans hab hbc

theorem insertStr_perm (a : String) (l : List String) :
    List.Perm (insertStr a l) (a :: l) := by
  induction l with
  | nil => simp [insertStr]
  | cons b t ih =>
    by_cases h : strLe a b
    · simp [insertStr, h]
    · simp only [insertStr, if_neg h]
      exact (List.Perm.cons b ih).trans (List.Perm.swap a b t)

theorem sortStrings_perm (l : List String) : List.Perm (sortStrings l) l := by
  induction l with
  | nil => simp [sortStrings]
  | cons a t ih =>
    exact (insertStr_perm a (sortStrings t)).trans (List.Perm.cons a ih)

theorem insertStr_sorted (a : String) (l : List String)
    (h : List.Pairwise (fun x y => strLe x y = true) l) :
    List.Pairwise (fun x y => strLe x y = true) (insertStr a l) := by
  induction l with
  | nil => simp [insertStr]
  | cons b t ih =>
    rcases List.pairwise_cons.mp h with ⟨hb, ht⟩
    by_cases hab : strLe a b
    · simp only [insertStr, if_pos hab]
      refine List.pairwise_cons.mpr ⟨?_, h⟩
      intro x hx
      rcases List.mem_cons.mp hx with hx | hx
      · simpa [hx] using hab
      · exact strLe_trans hab (hb x hx)
    · simp only [insertStr, if_neg hab]
      refine List.pairwise_cons.mpr ⟨?_, ih ht⟩
      intro x hx
      have hba : strLe b a := by
        rcases Bool.or_eq_true_iff.mp (strLe_total a b) with h1 | h1
        · exact absurd h1 hab
        · exact h1
      have hmem := (insertStr_perm a t).mem_iff.mp hx
      rcases List.mem_cons.mp hmem with hx1 | hx1
      · simpa [hx1] using hba
      · exact hb x hx1

theorem sortStrings_sorted (l : List String) :
    List.Pairwise (fun x y => strLe x y = true) (sortStrings l) := by
  induction l with
  | nil => simp [sortStrings]
  | cons a t ih => exact insertStr_sorted a (sortStrings t) ih

example : emailMatches "A@b.co a@b.co" = ["A@b.co", "a@b.co"] := by decide

example : extract_emails_from_html
    "mailto:hello@example.com support@example.com firstname.lastname@sub.domain.ai logo@2x.png"
    none
    = ["firstname.lastname@sub.domain.ai", "hello@example.com", "support@example.com"] := by
  decide

example : extract_emails_from_html "a@alphaai.com other@other.com" (some "alphaai.com")
    = ["a@alphaai.com", "other@other.com"] := by decide

example : extract_emails_from_html "x jane.doe@example.com info@example.com b@other.ai"
    (some "example.com")
    = ["info@example.com", "jane.doe@example.com", "b@other.ai"] := by decide

example : normalize_domain samplePsl "https://Sub.Example.co.uk" = some "example.co.uk" := by
  decide

example : normalize_domain samplePsl "example.com" = some "example.com" := by decide

example : normalize_domain samplePsl "http://example.ai/path" = some "example.ai" := by decide

example : normalize_domain samplePsl "" = none := by decide

/-- C1: in `env1` the root page (dequeued at depth 0) links to
`https://d/contact2`; the kept link is enqueued at depth 0, not at
depth 0 + 1: `enqueue_candidates` appends every candidate at the
constant depth 0, so the spec's `depth+1` bookkeeping (and with it the
`depth > max_depth` cutoff) never takes effect. -/
theorem C1_link_enqueued_at_depth_zero :
    (crawlLoop env1 1 (crawlInit env1)).q = [("https://d/contact2", 0)] := by
  decide

/-- C2 counterexample: with `max_pages_per_site = 1` and every fetch
failing, the crawler issues one fetch attempt per queued seed URL —
ten in total — because only successful fetches are counted against the
budget. -/
theorem C2_counterexample :
    (crawlLoop env2 10 (crawlInit env2)).fetches.length = 10
    ∧ env2.maxPages = 1
    ∧ ¬((crawlLoop env2 10 (crawlInit env2)).fetches.length ≤ env2.maxPages) := by
  decide

/-- C6 counterexample: the root page of `env3` offers
`https://d/contact2` twice in one link batch; `enqueue_candidates`
checks `seen` but never updates it inside the batch, so the URL is
enqueued twice and subsequently fetched twice. -/
theorem C6_counterexample :
    List.count "https://d/contact2"
        ((crawlLoop env3 1 (crawlInit env3)).q.map Prod.fst) = 2
    ∧ (crawlLoop env3 3 (crawlInit env3)).fetches
        = ["https://d/", "https://d/contact2", "https://d/contact2"] := by
  decide

/-- C5 counterexample: a disposable-domain address discovered by the
crawl stays in the finalized `emails_by_source` map (which is passed to
`assess_confidence` and serialized into the result), even though it is
dropped from the cleaned email list. -/
theorem C5_counterexample :
    ("a@mailinator.com", "page") ∈ (finalizeEvidence evidence5 (some "x.com")).2
    ∧ DISPOSABLE_DOMAINS.contains (strLower (afterFirstChar '@' "a@mailinator.com")) = true
    ∧ finalizeEmails evidence5 (some "x.com") = ["jane.doe@x.com"] := by
  decide

/-- C4 counterexample: deduplication in `extract_emails_from_html` is
by exact string, not case-insensitive: two case-variants of the same
address both survive, under a bias domain they both end up in the
on-domain half. -/
theorem C4_counterexample :
    extract_emails_from_html "A@b.co a@b.co" (some "b.co") = ["A@b.co", "a@b.co"]
    ∧ strLower "A@b.co" = strLower "a@b.co" := by
  decide

/-- C8: `merge_checkpoint` keeps an input row whose company name
already occurs in the checkpoint whenever the checkpoint row's domain
is non-empty, because it compares the key `(name, "")` against
checkpoint keys `(name, domain)`. -/
theorem C8_merge_keeps_processed_company :
    merge_checkpoint ["Acme"] [("Acme", "acme.com")] = ["Acme"] := by
  decide

/-! ### Helper lemmas for C5 -/

theorem filter_emails_basic_mem_aux (d : Option String) (e : String) :
    ∀ (l : List String) (acc : List String),
      e ∈ l.foldl (fun out x =>
        if !(strContainsChar x '@') then out
        else if DISPOSABLE_DOMAINS.contains (strLower (afterFirstChar '@' x)) then out
        else out ++ [strTrim x]) acc →
      e ∈ acc ∨ ∃ x ∈ l, e = strTrim x ∧ strContainsChar x '@' = true ∧
        DISPOSABLE_DOMAINS.contains (strLower (afterFirstChar '@' x)) = false := by
  intro l
  induction l with
  | nil => intro acc h; exact Or.inl h
  | cons x t ih =>
    intro acc h
    rcases ih _ h with h1 | ⟨y, hy, hmem⟩
    · replace h1 : e ∈ (if (!strContainsChar x '@') = true then acc
          else if DISPOSABLE_DOMAINS.contains (strLower (afterFirstChar '@' x)) = true then acc
          else acc ++ [strTrim x]) := h1
      by_cases hat : strContainsChar x '@' = true
      · have c1 : ¬((!strContainsChar x '@') = true) := by simp [hat]
        by_cases hdisp : DISPOSABLE_DOMAINS.contains (strLower (afterFirstChar '@' x)) = true
        · rw [if_neg c1, if_pos hdisp] at h1
          exact Or.inl h1
        · have hdisp2 : DISPOSABLE_DOMAINS.contains (strLower (afterFirstChar '@' x)) = false :=
            Bool.eq_false_iff.mpr hdisp
          rw [if_neg c1, if_neg hdisp] at h1
          rcases List.mem_append.mp h1 with h2 | h2
          · exact Or.inl h2
          · exact Or.inr ⟨x, List.mem_cons_self x t, by simpa using h2, hat, hdisp2⟩
      · have hat2 : strContainsChar x '@' = false := Bool.eq_false_iff.mpr hat
        have c1 : ((!strContainsChar x '@') = true) := by simp [hat2]
        rw [if_pos c1] at h1
        exact Or.inl h1
    · exact Or.inr ⟨y, List.mem_cons_of_mem x hy, hmem⟩

theorem filter_emails_basic_mem {emails : List String} {d : Option String} {e : String}
    (h : e ∈ filter_emails_basic emails d) :
    ∃ x ∈ emails, e = strTrim x ∧ strContainsChar x '@' = true ∧
      DISPOSABLE_DOMAINS.contains (strLower (afterFirstChar '@' x)) = false := by
  rcases filter_emails_basic_mem_aux d e emails [] h with h1 | h1
  · simp at h1
  · exact h1

theorem dedupe_keep_order_mem_aux (e : String) :
    ∀ (l : List String) (acc : List String × List String),
      e ∈ (l.foldl (fun acc x =>
        let k := strLower x
        if acc.2.contains k then acc else (acc.1 ++ [x], acc.2 ++ [k])) acc).1 →
      e ∈ acc.1 ∨ e ∈ l := by
  intro l
  induction l with
  | nil => intro acc h; exact Or.inl h
  | cons x t ih =>
    intro acc h
    rcases ih _ h with h1 | h1
    · by_cases hk : acc.2.contains (strLower x)
      · simp only [if_pos hk] at h1
        exact Or.inl h1
      · simp only [if_neg hk] at h1
        rcases List.mem_append.mp h1 with h2 | h2
        · exact Or.inl h2
        · exact Or.inr (by simpa using Or.inl (by simpa using h2))
    · exact Or.inr (List.mem_cons_of_mem x h1)

theorem dedupe_keep_order_mem {l : List String} {e : String}
    (h : e ∈ dedupe_keep_order l) : e ∈ l := by
  rcases dedupe_keep_order_mem_aux e l ([], []) h with h1 | h1
  · simp at h1
  · exact h1

/-- C5 amended: the cleaned email list that `process_company` hands to
`assess_confidence` contains no disposable-domain address (filtering
runs before the dedup order is fixed); the `emails_by_source` evidence
map itself, however, is finalized unfiltered (see the counterexample).
The hypothesis that keys carry no surrounding whitespace matches every
key produced by the extractor and the API adapters. -/
theorem C5_no_disposable_in_scored_list (m : List (String × String)) (d : Option String)
    (htrim : ∀ e ∈ m.map Prod.fst, strTrim e = e) :
    ∀ e ∈ finalizeEmails m d,
      DISPOSABLE_DOMAINS.contains (strLower (afterFirstChar '@' e)) = false := by
  intro e he
  have h1 : e ∈ filter_emails_basic (m.map Prod.fst) d := dedupe_keep_order_mem he
  obtain ⟨x, hx, heq, _, hdisp⟩ := filter_emails_basic_mem h1
  rw [heq, htrim x hx]
  exact hdisp

/-- Witness for C5: the theorem applied to the concrete evidence map. -/
theorem C5_witness :
    DISPOSABLE_DOMAINS.contains (strLower (afterFirstChar '@' "jane.doe@x.com")) = false :=
  C5_no_disposable_in_scored_list evidence5 (some "x.com") (by decide)
    "jane.doe@x.com" (by decide)

/-! ### Helper lemmas for C6 and C2 -/

theorem setUpdate_mem {u : String} :
    ∀ (l s : List String), u ∈ s → u ∈ setUpdate s l := by
  intro l
  induction l with
  | nil => intro s h; exact h
  | cons x t ih =>
    intro s h
    show u ∈ List.foldl _ (if s.contains x then s else s ++ [x]) t
    by_cases hx : s.contains x
    · rw [if_pos hx]; exact ih s h
    · rw [if_neg hx]; exact ih (s ++ [x]) (List.mem_append_left _ h)

theorem enqueue_candidates_count (env : CrawlEnv) (seen : List String) {u : String}
    (hu : u ∈ seen) :
    ∀ (urls : List String) (q : List (String × Nat)),
      List.count u ((enqueue_candidates env seen urls q).map Prod.fst)
        = List.count u (q.map Prod.fst) := by
  intro urls
  induction urls with
  | nil => intro q; rfl
  | cons x t ih =>
    intro q
    show List.count u ((enqueue_candidates env seen t
        (if seen.contains x = true then q
         else if (!env.sameDomain x) = true then q
         else if keywordPath env x = true then q ++ [(x, 0)] else q)).map Prod.fst)
      = List.count u (q.map Prod.fst)
    by_cases hx : seen.contains x = true
    · rw [if_pos hx]; exact ih q
    · rw [if_neg hx]
      by_cases hsd : (!env.sameDomain x) = true
      · rw [if_pos hsd]; exact ih q
      · rw [if_neg hsd]
        by_cases hk : keywordPath env x = true
        · rw [if_pos hk, ih (q ++ [(x, 0)])]
          have hne : (x == u) = false := by
            simp only [beq_eq_false_iff_ne]
            intro hxy
            exact hx (by rw [hxy]; exact List.elem_eq_true_of_mem hu)
          simp [List.count_append, List.count_cons, hne]
        · rw [if_neg hk]; exact ih q

theorem crawlStep_nil (env : CrawlEnv) (st : CrawlState) (hq : st.q = []) :
    crawlStep env st = st := by
  unfold crawlStep; rw [hq]

theorem crawlStep_cons (env : CrawlEnv) (st : CrawlState) (url : String)
    (depth : Nat) (rest : List (String × Nat)) (hq : st.q = (url, depth) :: rest) :
    crawlStep env st = crawlProcess env st url depth rest := by
  unfold crawlStep; rw [hq]

theorem crawlStep_seen_mono (env : CrawlEnv) (st : CrawlState) {u : String}
    (h : u ∈ st.seen) : u ∈ (crawlStep env st).seen := by
  rcases hq : st.q with _ | ⟨⟨url, depth⟩, rest⟩
  · rw [crawlStep_nil env st hq]; exact h
  · rw [crawlStep_cons env st url depth rest hq]
    unfold crawlProcess
    by_cases hd : env.maxDepth < depth
    · rw [if_pos hd]; exact h
    · rw [if_neg hd]
      by_cases hr : robotsDisallows env url = true
      · rw [if_pos hr]; exact h
      · rw [if_neg hr]
        cases hF : env.fetchText url with
        | none => exact h
        | some html => exact setUpdate_mem _ _ h

theorem crawlStep_count (env : CrawlEnv) (st : CrawlState) {u : String}
    (h : u ∈ st.seen) :
    List.count u ((crawlStep env st).q.map Prod.fst)
      ≤ List.count u (st.q.map Prod.fst) := by
  rcases hq : st.q with _ | ⟨⟨url, depth⟩, rest⟩
  · rw [crawlStep_nil env st hq, hq]
  · rw [crawlStep_cons env st url depth rest hq]
    have hmono : List.count u (rest.map Prod.fst)
        ≤ List.count u ((((url, depth) : String × Nat) :: rest).map Prod.fst) := by
      simp only [List.map_cons, List.count_cons]
      omega
    unfold crawlProcess
    by_cases hd : env.maxDepth < depth
    · rw [if_pos hd]; exact hmono
    · rw [if_neg hd]
      by_cases hr : robotsDisallows env url = true
      · rw [if_pos hr]; exact hmono
      · rw [if_neg hr]
        cases hF : env.fetchText url with
        | none => exact hmono
        | some html =>
          refine le_trans (le_of_eq ?_) hmono
          exact enqueue_candidates_count env st.seen h _ _

/-- C6 amended: within one crawl the `seen` set only grows, and a URL
that is in `seen` (in particular any URL already enqueued, since every
queued URL is marked seen when its batch is processed) is never
enqueued again by a later batch: its multiplicity in the queue never
increases.  Re-enqueueing is possible only for duplicate occurrences
inside a single page's link batch (see the counterexample). -/
theorem C6_seen_dedups_across_batches (env : CrawlEnv) (fuel : Nat)
    (st : CrawlState) (u : String) (h : u ∈ st.seen) :
    u ∈ (crawlLoop env fuel st).seen ∧
      List.count u ((crawlLoop env fuel st).q.map Prod.fst)
        ≤ List.count u (st.q.map Prod.fst) := by
  induction fuel generalizing st with
  | zero => exact ⟨h, le_refl _⟩
  | succ f ih =>
    unfold crawlLoop
    by_cases hg : st.q ≠ [] ∧ st.pagesVisited < env.maxPages
    · rw [if_pos hg]
      rcases ih (crawlStep env st) (crawlStep_seen_mono env st h) with ⟨h1, h2⟩
      exact ⟨h1, le_trans h2 (crawlStep_count env st h)⟩
    · rw [if_neg hg]
      exact ⟨h, le_refl _⟩

/-- Witness for C6: the theorem applied to `env3` from the seed state. -/
theorem C6_witness :
    "https://d/" ∈ (crawlLoop env3 1 (crawlInit env3)).seen ∧
      List.count "https://d/" ((crawlLoop env3 1 (crawlInit env3)).q.map Prod.fst)
        ≤ List.count "https://d/" ((crawlInit env3).q.map Prod.fst) :=
  C6_seen_dedups_across_batches env3 1 (crawlInit env3) "https://d/" (by decide)

theorem crawlStep_fetch_inv (env : CrawlEnv) (st : CrawlState)
    (hlt : st.pagesVisited < env.maxPages)
    (hc : (st.fetches.filter (fun u => (env.fetchText u).isSome)).length
        = st.pagesVisited) :
    ((crawlStep env st).fetches.filter (fun u => (env.fetchText u).isSome)).length
        = (crawlStep env st).pagesVisited
    ∧ (crawlStep env st).pagesVisited ≤ env.maxPages := by
  rcases hq : st.q with _ | ⟨⟨url, depth⟩, rest⟩
  · rw [crawlStep_nil env st hq]; exact ⟨hc, le_of_lt hlt⟩
  · rw [crawlStep_cons env st url depth rest hq]
    unfold crawlProcess
    by_cases hd : env.maxDepth < depth
    · rw [if_pos hd]; exact ⟨hc, le_of_lt hlt⟩
    · rw [if_neg hd]
      by_cases hr : robotsDisallows env url = true
      · rw [if_pos hr]; exact ⟨hc, le_of_lt hlt⟩
      · rw [if_neg hr]
        cases hF : env.fetchText url with
        | none =>
          refine ⟨?_, le_of_lt hlt⟩
          simp [List.filter_append, hF, hc]
        | some html =>
          constructor
          · show ((st.fetches ++ [url]).filter
                (fun u => (env.fetchText u).isSome)).length = st.pagesVisited + 1
            simp [List.filter_append, hF, hc]
          · show st.pagesVisited + 1 ≤ env.maxPages
            omega

theorem crawlLoop_fetch_inv (env : CrawlEnv) :
    ∀ (fuel : Nat) (st : CrawlState),
      (st.fetches.filter (fun u => (env.fetchText u).isSome)).length = st.pagesVisited →
      st.pagesVisited ≤ env.maxPages →
      ((crawlLoop env fuel st).fetches.filter
          (fun u => (env.fetchText u).isSome)).length
        = (crawlLoop env fuel st).pagesVisited
      ∧ (crawlLoop env fuel st).pagesVisited ≤ env.maxPages := by
  intro fuel
  induction fuel with
  | zero => intro st hc hb; exact ⟨hc, hb⟩
  | succ f ih =>
    intro st hc hb
    unfold crawlLoop
    by_cases hg : st.q ≠ [] ∧ st.pagesVisited < env.maxPages
    · rw [if_pos hg]
      rcases crawlStep_fetch_inv env st hg.2 hc with ⟨h1, h2⟩
      exact ih (crawlStep env st) h1 h2
    · rw [if_neg hg]
      exact ⟨hc, hb⟩

/-- C2 amended: in any crawl, the number of successful page fetches —
the fetch attempts that return a page, which are exactly the ones
`pages_visited` counts — never exceeds `max_pages_per_site`.  Failed
attempts are not counted against the budget (see the counterexample),
so the total number of attempts can be larger. -/
theorem C2_successful_fetch_budget (env : CrawlEnv) (fuel : Nat) :
    ((crawlLoop env fuel (crawlInit env)).fetches.filter
        (fun u => (env.fetchText u).isSome)).length ≤ env.maxPages := by
  rcases crawlLoop_fetch_inv env fuel (crawlInit env) rfl (Nat.zero_le _) with ⟨h1, h2⟩
  rw [h1]
  exact h2

/-! ### C3: the confidence scorer matches its rule-priority reading -/

theorem list_any_congr {α : Type} {p q : α → Bool} :
    ∀ {l : List α}, (∀ x ∈ l, p x = q x) → l.any p = l.any q := by
  intro l
  induction l with
  | nil => intro _; rfl
  | cons x t ih =>
    intro h
    simp only [List.any_cons, h x (List.mem_cons_self x t),
      ih (fun y hy => h y (List.mem_cons_of_mem x hy))]

/-- C3: `assess_confidence` is a pure function of its arguments
(determinism) and computes exactly the claim's five prioritized rules,
first match winning, whenever every listed email has an entry in the
discovery-source map (which holds in `process_company`, where the list
is built from that map's keys). -/
theorem C3_assess_confidence_rules (emails : List String)
    (hv src : List (String × String))
    (H : ∀ e ∈ emails, (lookupVal src e).isSome) :
    assess_confidence emails hv src = specAssessConfidence emails hv src := by
  have f2eq : emails.any (fun e => lookupVal src e == some "apollo")
      = emails.any (fun e => (lookupVal src e).getD "page" == "apollo") := by
    apply list_any_congr
    intro e _
    rcases hs : lookupVal src e with _ | v <;> simp [hs]
  have f3eq : emails.any (fun e => lookupVal src e == some "page" &&
        (dottedLocal e || !(GENERIC_PREFIXES.contains (localOf e))))
      = emails.any (fun e => ((lookupVal src e).getD "page" == "page") &&
        (dottedLocal e || !(GENERIC_PREFIXES.contains (localOf e)))) := by
    apply list_any_congr
    intro e he
    rcases hs : lookupVal src e with _ | v
    · exact absurd (H e he) (by simp [hs])
    · simp [hs]
  unfold assess_confidence specAssessConfidence
  cases h1 : emails.find? (fun e => lookupVal hv e == some "valid") with
  | some e =>
    have hm := List.mem_of_find?_eq_some h1
    have hp := List.find?_some h1
    rw [if_pos (List.any_eq_true.mpr ⟨e, hm, hp⟩)]
    rfl
  | none =>
    have hno1 : ¬(emails.any (fun e => lookupVal hv e == some "valid") = true) := by
      rw [Bool.not_eq_true, List.any_eq_false]
      exact List.find?_eq_none.mp h1
    rw [if_neg hno1]
    cases h2 : emails.find? (fun e => lookupVal src e == some "apollo") with
    | some e2 =>
      have hm := List.mem_of_find?_eq_some h2
      have hp := List.find?_some h2
      rw [if_pos (by rw [← f2eq]; exact List.any_eq_true.mpr ⟨e2, hm, hp⟩)]
    | none =>
      have hno2 : ¬(emails.any
          (fun e => (lookupVal src e).getD "page" == "apollo") = true) := by
        rw [← f2eq, Bool.not_eq_true, List.any_eq_false]
        exact List.find?_eq_none.mp h2
      rw [if_neg hno2]
      cases h3 : emails.find? (fun e => lookupVal src e == some "page" &&
          (dottedLocal e || !(GENERIC_PREFIXES.contains (localOf e)))) with
      | some e3 =>
        have hm := List.mem_of_find?_eq_some h3
        have hp := List.find?_some h3
        rw [if_pos (by rw [← f3eq]; exact List.any_eq_true.mpr ⟨e3, hm, hp⟩)]
      | none =>
        have hno3 : ¬(emails.any (fun e => ((lookupVal src e).getD "page" == "page") &&
            (dottedLocal e || !(GENERIC_PREFIXES.contains (localOf e)))) = true) := by
          rw [← f3eq, Bool.not_eq_true, List.any_eq_false]
          exact List.find?_eq_none.mp h3
        rw [if_neg hno3]
        cases emails with
        | nil => rfl
        | cons e0 t => rfl

/-- Witness for C3: the theorem applied to a concrete page-scraped
dotted email; both sides compute `("medium", "page")`. -/
theorem C3_witness :
    assess_confidence ["jane.doe@x.com"] [] [("jane.doe@x.com", "page")]
      = specAssessConfidence ["jane.doe@x.com"] [] [("jane.doe@x.com", "page")] :=
  C3_assess_confidence_rules ["jane.doe@x.com"] [] [("jane.doe@x.com", "page")]
    (by decide)

/-! ### C4: shape of the biased extractor output -/

theorem extract_none_eq (html : String) :
    extract_emails_from_html html none = sortStrings (extractFiltered html) := rfl

theorem extract_some_eq (html d : String) (hd : d ≠ "") :
    extract_emails_from_html html (some d)
      = sortStrings ((extractFiltered html).filter (endsWithAtDomain d))
        ++ sortStrings ((extractFiltered html).filter
            (fun e => !(((sortStrings ((extractFiltered html).filter
                (endsWithAtDomain d))).map strLower).contains (strLower e)))) := by
  show (if d = "" then _ else _) = _
  rw [if_neg hd]

theorem endsWithAtDomain_of_lower_eq {d x y : String}
    (hxy : strLower x = strLower y) (hy : endsWithAtDomain d y = true) :
    endsWithAtDomain d x = true := by
  unfold endsWithAtDomain at hy ⊢
  rw [hxy]
  exact hy

theorem mem_sortStrings {l : List String} {x : String} :
    x ∈ sortStrings l ↔ x ∈ l :=
  (sortStrings_perm l).mem_iff

/-- On the members of `extractFiltered html`, the off-half's exclusion
test coincides with the on-domain test. -/
theorem offFilter_test (html d : String) {e : String}
    (he : e ∈ extractFiltered html) :
    ((sortStrings ((extractFiltered html).filter (endsWithAtDomain d))).map
        strLower).contains (strLower e) = endsWithAtDomain d e := by
  by_cases hP : endsWithAtDomain d e = true
  · rw [hP]
    apply List.elem_eq_true_of_mem
    exact List.mem_map_of_mem strLower
      (mem_sortStrings.mpr (List.mem_filter.mpr ⟨he, hP⟩))
  · have hP2 : endsWithAtDomain d e = false := Bool.eq_false_iff.mpr hP
    rw [hP2]
    rw [← Bool.not_eq_true]
    intro hcontra
    have hmem := List.mem_of_elem_eq_true hcontra
    rcases List.mem_map.mp hmem with ⟨y, hy, hly⟩
    have hyP : endsWithAtDomain d y = true :=
      (List.mem_filter.mp (mem_sortStrings.mp hy)).2
    exact hP (endsWithAtDomain_of_lower_eq hly.symm hyP)

/-- C4 amended: for every input and every non-empty bias domain the
output splits into an on-domain half followed by an off-domain half,
each sorted; the biased output is a permutation of the unbiased one
(the bias never drops an address); and both outputs are deduplicated
by exact string — not case-insensitively (see the counterexample). -/
theorem C4_bias_reorders_only (html d : String) (hd : d ≠ "") :
    ∃ onDom offDom,
      extract_emails_from_html html (some d) = onDom ++ offDom
      ∧ (∀ e ∈ onDom, endsWithAtDomain d e = true)
      ∧ (∀ e ∈ offDom, endsWithAtDomain d e = false)
      ∧ List.Pairwise (fun x y => strLe x y = true) onDom
      ∧ List.Pairwise (fun x y => strLe x y = true) offDom
      ∧ List.Perm (extract_emails_from_html html (some d))
          (extract_emails_from_html html none)
      ∧ (extract_emails_from_html html (some d)).Nodup := by
  have hcongr : (extractFiltered html).filter
        (fun e => !(((sortStrings ((extractFiltered html).filter
            (endsWithAtDomain d))).map strLower).contains (strLower e)))
      = (extractFiltered html).filter (fun e => !(endsWithAtDomain d e)) :=
    List.filter_congr (fun e he => by rw [offFilter_test html d he])
  have hsplit := extract_some_eq html d hd
  rw [hcongr] at hsplit
  have hperm : List.Perm (extract_emails_from_html html (some d))
      (extract_emails_from_html html none) := by
    rw [hsplit, extract_none_eq]
    refine ((List.Perm.append (sortStrings_perm _) (sortStrings_perm _)).trans
      ?_).trans (sortStrings_perm (extractFiltered html)).symm
    exact List.filter_append_perm (endsWithAtDomain d) (extractFiltered html)
  refine ⟨sortStrings ((extractFiltered html).filter (endsWithAtDomain d)),
    sortStrings ((extractFiltered html).filter (fun e => !(endsWithAtDomain d e))),
    hsplit, ?_, ?_, sortStrings_sorted _, sortStrings_sorted _, hperm, ?_⟩
  · intro e he
    exact (List.mem_filter.mp (mem_sortStrings.mp he)).2
  · intro e he
    have := (List.mem_filter.mp (mem_sortStrings.mp he)).2
    simpa using this
  · have hnodupF : (extractFiltered html).Nodup := List.nodup_dedup _
    rw [hsplit]
    refine List.Nodup.append ?_ ?_ ?_
    · exact ((sortStrings_perm _).nodup_iff).mpr (hnodupF.filter _)
    · exact ((sortStrings_perm _).nodup_iff).mpr (hnodupF.filter _)
    · intro a ha hb
      have h1 : endsWithAtDomain d a = true :=
        (List.mem_filter.mp (mem_sortStrings.mp ha)).2
      have h2 := (List.mem_filter.mp (mem_sortStrings.mp hb)).2
      simp [h1] at h2

/-- Witness for C4: the permutation conjunct extracted from the theorem
at the spec's own bias example. -/
theorem C4_witness :
    List.Perm
      (extract_emails_from_html "a@alphaai.com other@other.com" (some "alphaai.com"))
      (extract_emails_from_html "a@alphaai.com other@other.com" none) :=
  ((((((C4_bias_reorders_only "a@alphaai.com other@other.com" "alphaai.com"
    (by decide)).choose_spec.choose_spec.2).2).2).2).2).1

/-! ### C9: `normalize_domain` never fails, `None` exactly on the
listed conditions, and the shape of a successful result -/

theorem charOfNat_toNat {n : Nat} (h1 : 65 ≤ n) (h2 : n ≤ 90) :
    (Char.ofNat (n + 32)).toNat = n + 32 := by
  have hv : Nat.isValidChar (n + 32) := Or.inl (by omega)
  simp only [Char.ofNat, dif_pos hv, Char.ofNatAux, Char.toNat]
  simp [UInt32.toNat, BitVec.toNat_ofNatLt]

theorem toLower_toLower (c : Char) : c.toLower.toLower = c.toLower := by
  simp only [Char.toLower]
  by_cases h : c.toNat ≥ 65 ∧ c.toNat ≤ 90
  · rw [if_pos h, charOfNat_toNat h.1 h.2, if_neg (by omega)]
  · rw [if_neg h, if_neg h]

theorem toLower_eq_low {c a : Char} (ha : a.toNat < 97) (h : c.toLower = a) :
    c = a := by
  simp only [Char.toLower] at h
  by_cases hr : c.toNat ≥ 65 ∧ c.toNat ≤ 90
  · rw [if_pos hr] at h
    have hval := charOfNat_toNat hr.1 hr.2
    rw [h] at hval
    omega
  · rwa [if_neg hr] at h

theorem charOk_dot : CharOk '.' := by
  refine ⟨by decide, by decide, by decide⟩

theorem hostnameOf_chars (s : String) : ∀ c ∈ (hostnameOf s).toList, CharOk c := by
  intro c hc
  replace hc : c ∈ (((netlocOf s).reverse.takeWhile
      (fun x => x ≠ '@')).reverse.takeWhile (fun x => x ≠ ':')).map Char.toLower := hc
  rcases List.mem_map.mp hc with ⟨y, hy, hly⟩
  have hyc : y ≠ ':' := by
    have := List.mem_takeWhile_imp hy
    simpa using this
  have hynet : y ∈ netlocOf s := by
    have h1 : y ∈ ((netlocOf s).reverse.takeWhile (fun x => x ≠ '@')).reverse :=
      (List.takeWhile_sublist _).mem hy
    have h2 : y ∈ (netlocOf s).reverse :=
      (List.takeWhile_sublist _).mem (List.mem_reverse.mp h1)
    exact List.mem_reverse.mp h2
  have hys : y ≠ '/' := by
    unfold netlocOf at hynet
    by_cases h2 : (afterScheme s).take 2 = ['/', '/']
    · rw [if_pos h2] at hynet
      have := List.mem_takeWhile_imp hynet
      simp only [Bool.and_eq_true, decide_eq_true_eq] at this
      exact this.1.1
    · rw [if_neg h2] at hynet
      simp at hynet
  rw [← hly]
  refine ⟨?_, ?_, toLower_toLower y⟩
  · intro h
    exact hys (toLower_eq_low (by decide) h)
  · intro h
    exact hyc (toLower_eq_low (by decide) h)

theorem splitList_chars {sep : Char} :
    ∀ {l : List Char} {piece : List Char}, piece ∈ splitList sep l →
      ∀ x ∈ piece, x ∈ l := by
  intro l
  induction l with
  | nil =>
    intro piece hp x hx
    simp only [splitList, List.mem_singleton] at hp
    subst hp
    simp at hx
  | cons c t ih =>
    intro piece hp x hx
    by_cases hc : c = sep
    · rw [splitList, if_pos hc] at hp
      rcases List.mem_cons.mp hp with hp1 | hp1
      · subst hp1; simp at hx
      · exact List.mem_cons_of_mem c (ih hp1 x hx)
    · rw [splitList, if_neg hc] at hp
      rcases hr : splitList sep t with _ | ⟨h0, t2⟩
      · rw [hr] at hp
        simp only [List.mem_singleton] at hp
        subst hp
        simp only [List.mem_singleton] at hx
        rw [hx]
        exact List.mem_cons_self c t
      · rw [hr] at hp
        rcases List.mem_cons.mp hp with hp1 | hp1
        · subst hp1
          rcases List.mem_cons.mp hx with hx1 | hx1
          · subst hx1; exact List.mem_cons_self x t
          · have : h0 ∈ splitList sep t := by rw [hr]; exact List.mem_cons_self h0 t2
            exact List.mem_cons_of_mem c (ih this x hx1)
        · have : piece ∈ splitList sep t := by
            rw [hr]; exact List.mem_cons_of_mem h0 hp1
          exact List.mem_cons_of_mem c (ih this x hx)

theorem splitOnChar_chars {sep : Char} {s p : String} (hp : p ∈ splitOnChar sep s) :
    ∀ x ∈ p.toList, x ∈ s.toList := by
  rcases List.mem_map.mp hp with ⟨piece, hpiece, hmk⟩
  intro x hx
  rw [← hmk] at hx
  exact splitList_chars hpiece x hx

theorem longestSuffix_subsets (psl : List String) :
    ∀ (labels : List String),
      (∀ p ∈ (longestSuffix psl labels).1, p ∈ labels) ∧
      (∀ p ∈ (longestSuffix psl labels).2, p ∈ labels) := by
  intro labels
  induction labels with
  | nil => exact ⟨by simp [longestSuffix], by simp [longestSuffix]⟩
  | cons x t ih =>
    unfold longestSuffix
    by_cases hx : psl.contains (joinDots (x :: t)) = true
    · rw [if_pos hx]
      exact ⟨by simp, fun p hp => hp⟩
    · rw [if_neg hx]
      constructor
      · intro p hp
        rcases List.mem_cons.mp hp with hp1 | hp1
        · subst hp1; exact List.mem_cons_self p t
        · exact List.mem_cons_of_mem x (ih.1 p hp1)
      · intro p hp
        exact List.mem_cons_of_mem x (ih.2 p hp)

theorem joinDots_chars :
    ∀ (pieces : List String) (x : Char), x ∈ (joinDots pieces).toList →
      (∃ p ∈ pieces, x ∈ p.toList) ∨ x = '.' := by
  intro pieces
  induction pieces with
  | nil => intro x hx; simp [joinDots] at hx
  | cons a t ih =>
    intro x hx
    cases t with
    | nil => exact Or.inl ⟨a, List.mem_singleton.mpr rfl, hx⟩
    | cons b t2 =>
      replace hx : x ∈ (a.toList ++ ['.']) ++ (joinDots (b :: t2)).toList := hx
      rcases List.mem_append.mp hx with hx1 | hx1
      · rcases List.mem_append.mp hx1 with hx2 | hx2
        · exact Or.inl ⟨a, List.mem_cons_self a _, hx2⟩
        · exact Or.inr (List.mem_singleton.mp hx2)
      · rcases ih x hx1 with ⟨p, hp, hxp⟩ | hdot
        · exact Or.inl ⟨p, List.mem_cons_of_mem a hp, hxp⟩
        · exact Or.inr hdot

theorem tldParts_chars (psl : List String) (host : String)
    (hhost : ∀ x ∈ host.toList, CharOk x) :
    (∀ c ∈ (tldParts psl host).1.toList, CharOk c) ∧
    (∀ c ∈ (tldParts psl host).2.toList, CharOk c) := by
  have hlabels : ∀ p ∈ splitOnChar '.' host, ∀ x ∈ p.toList, CharOk x :=
    fun p hp x hx => hhost x (splitOnChar_chars hp x hx)
  constructor
  · intro c hc
    replace hc : c ∈ ((longestSuffix psl
        (splitOnChar '.' host)).1.getLastD "").toList := hc
    rcases List.mem_cons.mp (List.getLastD_mem_cons
        (longestSuffix psl (splitOnChar '.' host)).1 "") with hx | hx
    · rw [hx] at hc; simp at hc
    · exact hlabels _ ((longestSuffix_subsets psl _).1 _ hx) c hc
  · intro c hc
    replace hc : c ∈ (joinDots (longestSuffix psl
        (splitOnChar '.' host)).2).toList := hc
    rcases joinDots_chars _ c hc with ⟨p, hp, hcp⟩ | hdot
    · exact hlabels p ((longestSuffix_subsets psl _).2 p hp) c hcp
    · rw [hdot]; exact charOk_dot

theorem normalize_domain_chars {psl : List String} {s d : String}
    (h : normalize_domain psl s = some d) : ∀ c ∈ d.toList, CharOk c := by
  unfold normalize_domain at h
  by_cases h1 : s = ""
  · rw [if_pos h1] at h; exact absurd h (by simp)
  · rw [if_neg h1] at h
    by_cases h2 : strTrim s = ""
    · rw [if_pos h2] at h; exact absurd h (by simp)
    · rw [if_neg h2] at h
      by_cases h3 : hostnameOf (if strHasSub (strTrim s) "://" = true then strTrim s
          else "http://" ++ strTrim s) = ""
      · rw [if_pos h3] at h; exact absurd h (by simp)
      · rw [if_neg h3] at h
        by_cases h4 : ((tldParts psl (hostnameOf (if strHasSub (strTrim s) "://" = true
            then strTrim s else "http://" ++ strTrim s))).1 = ""
            || (tldParts psl (hostnameOf (if strHasSub (strTrim s) "://" = true
            then strTrim s else "http://" ++ strTrim s))).2 = "") = true
        · rw [if_pos h4] at h; exact absurd h (by simp)
        · rw [if_neg h4] at h
          have hd := Option.some.inj h
          intro c hc
          rw [← hd] at hc
          have hT := tldParts_chars psl (hostnameOf (if strHasSub (strTrim s) "://" = true
            then strTrim s else "http://" ++ strTrim s)) (hostnameOf_chars _)
          rcases joinDots_chars _ c hc with ⟨p, hp, hcp⟩ | hdot
          · have hp2 := (List.mem_filter.mp hp).1
            rcases List.mem_cons.mp hp2 with hp3 | hp3
            · rw [hp3] at hcp; exact hT.1 c hcp
            · rcases List.mem_cons.mp hp3 with hp4 | hp4
              · rw [hp4] at hcp; exact hT.2 c hcp
              · simp at hp4
          · rw [hdot]; exact charOk_dot

/-- C9: `normalize_domain` on the spec's examples; it is total (a Lean
function — the source catches every exception and returns `None`), it
returns `None` exactly when the input is empty, yields no parsed host,
or the host lacks a recognized domain label or suffix; and a successful
result is lower-case and contains no scheme, path or port separator. -/
theorem C9_normalize_domain_contract :
    (normalize_domain samplePsl "https://Sub.Example.co.uk" = some "example.co.uk"
      ∧ normalize_domain samplePsl "example.com" = some "example.com"
      ∧ normalize_domain samplePsl "http://example.ai/path" = some "example.ai"
      ∧ normalize_domain samplePsl "" = none)
    ∧ (∀ (psl : List String) (s : String),
        normalize_domain psl s = none ↔
          (s = "" ∨ strTrim s = ""
            ∨ hostnameOf (if strHasSub (strTrim s) "://" = true then strTrim s
                else "http://" ++ strTrim s) = ""
            ∨ (tldParts psl (hostnameOf (if strHasSub (strTrim s) "://" = true
                then strTrim s else "http://" ++ strTrim s))).1 = ""
            ∨ (tldParts psl (hostnameOf (if strHasSub (strTrim s) "://" = true
                then strTrim s else "http://" ++ strTrim s))).2 = ""))
    ∧ (∀ (psl : List String) (s d : String), normalize_domain psl s = some d →
        strLower d = d ∧ strContainsChar d '/' = false ∧ strContainsChar d ':' = false) := by
  refine ⟨⟨by decide, by decide, by decide, by decide⟩, ?_, ?_⟩
  · intro psl s
    unfold normalize_domain
    by_cases h1 : s = ""
    · rw [if_pos h1]; simp [h1]
    · rw [if_neg h1]
      by_cases h2 : strTrim s = ""
      · rw [if_pos h2]; simp [h1, h2]
      · rw [if_neg h2]
        by_cases h3 : hostnameOf (if strHasSub (strTrim s) "://" = true then strTrim s
            else "http://" ++ strTrim s) = ""
        · rw [if_pos h3]; simp [h1, h2, h3]
        · rw [if_neg h3]
          by_cases h4 : ((tldParts psl (hostnameOf (if strHasSub (strTrim s) "://" = true
              then strTrim s else "http://" ++ strTrim s))).1 = ""
              || (tldParts psl (hostnameOf (if strHasSub (strTrim s) "://" = true
              then strTrim s else "http://" ++ strTrim s))).2 = "") = true
          · rw [if_pos h4]
            simp only [Bool.or_eq_true, decide_eq_true_eq] at h4
            constructor
            · intro _
              rcases h4 with h4 | h4
              · exact Or.inr (Or.inr (Or.inr (Or.inl h4)))
              · exact Or.inr (Or.inr (Or.inr (Or.inr h4)))
            · intro _; rfl
          · rw [if_neg h4]
            simp only [Bool.or_eq_true, decide_eq_true_eq, not_or] at h4
            constructor
            · intro hcontra; exact absurd hcontra (by simp)
            · intro hcontra
              rcases hcontra with h | h | h | h | h
              exacts [absurd h h1, absurd h h2, absurd h h3,
                absurd h h4.1, absurd h h4.2]
  · intro psl s d h
    have hchars := normalize_domain_chars h
    refine ⟨?_, ?_, ?_⟩
    · show String.mk (d.toList.map Char.toLower) = d
      rw [List.map_congr_left (fun a ha => (hchars a ha).2.2), List.map_id']
      rfl
    · rw [Bool.eq_false_iff]
      intro hcontra
      exact (hchars '/' (List.mem_of_elem_eq_true hcontra)).1 rfl
    · rw [Bool.eq_false_iff]
      intro hcontra
      exact (hchars ':' (List.mem_of_elem_eq_true hcontra)).2.1 rfl

/-- Witness for C9: the shape conjunct applied to the subdomain
example. -/

theorem C9_witness :
    strLower "example.co.uk" = "example.co.uk"
    ∧ strContainsChar "example.co.uk" '/' = false
    ∧ strContainsChar "example.co.uk" ':' = false :=
  C9_normalize_domain_contract.2.2 samplePsl "https://Sub.Example.co.uk"
    "example.co.uk" (by decide)

/-! ### C10: the rate limiter clamps its budget and always completes -/


theorem seqStep_none (per_minute : Nat) (st : List ℚ × ℚ × List ℚ) (d : ℚ)
    {dq2 : List ℚ} (hA : acquireCheck per_minute (st.2.1 + d) st.2.2 = (dq2, none)) :
    seqStep per_minute st d
      = (st.1 ++ [st.2.1 + d], st.2.1 + d, recordTimestamp dq2 (st.2.1 + d)) := by
  simp only [seqStep]
  rw [hA]

theorem seqStep_some (per_minute : Nat) (st : List ℚ × ℚ × List ℚ) (d : ℚ)
    {dq2 : List ℚ} {wake : ℚ}
    (hA : acquireCheck per_minute (st.2.1 + d) st.2.2 = (dq2, some wake)) :
    seqStep per_minute st d = (st.1 ++ [wake], wake, recordTimestamp dq2 wake) := by
  simp only [seqStep]
  rw [hA]

theorem seqStep_length (per_minute : Nat) (st : List ℚ × ℚ × List ℚ) (d : ℚ) :
    (seqStep per_minute st d).1.length = st.1.length + 1 := by
  rcases hA : acquireCheck per_minute (st.2.1 + d) st.2.2 with ⟨dq2, w⟩
  cases w with
  | none => rw [seqStep_none per_minute st d hA]; simp
  | some wake => rw [seqStep_some per_minute st d hA]; simp

theorem seqRun_length (per_minute : Nat) :
    ∀ (delays : List ℚ) (st : List ℚ × ℚ × List ℚ),
      ((delays.foldl (seqStep per_minute) st).1).length
        = st.1.length + delays.length := by
  intro delays
  induction delays with
  | nil => intro st; simp
  | cons d t ih =>
    intro st
    rw [List.foldl_cons, ih]
    have hstep := seqStep_length per_minute st d
    simp only [List.length_cons]
    omega

/-- C10: `RateLimiter(per_minute)` clamps its budget to
`max(1, per_minute)`, so every instance satisfies `per_minute ≥ 1`;
with the clamp, `acquire` always completes (one completion per call in
the sequential semantics, never an error), and a limiter built with
budget 0 still admits a call per rolling minute: after a completion at
time 0 the next sequential call completes at 60.01. -/
theorem C10_budget_clamped :
    (∀ pm : ℤ, (RateLimiter.init pm).per_minute = max 1 pm
      ∧ 1 ≤ (RateLimiter.init pm).per_minute
      ∧ (RateLimiter.init pm).timestamps = []
      ∧ ∀ delays : List ℚ,
          (seqCompletions (RateLimiter.init pm).per_minute.toNat delays).length
            = delays.length)
    ∧ (RateLimiter.init 0).per_minute = 1
    ∧ seqCompletions 1 [0, 0] = [0, 6001 / 100] := by
  refine ⟨?_, by decide, ?_⟩
  · intro pm
    refine ⟨rfl, le_max_left 1 pm, rfl, ?_⟩
    intro delays
    have := seqRun_length ((RateLimiter.init pm).per_minute.toNat) delays ([], 0, [])
    simpa [seqCompletions, seqRun] using this
  · show (seqRun 1 [0, 0]).1 = [0, 6001 / 100]
    have hp1 : pruneQ ((0 : ℚ) + 0) [] = [] := rfl
    have hA1 : acquireCheck 1 ((0 : ℚ) + 0) [] = ([], none) := by
      simp only [acquireCheck, hp1]
      norm_num
    have e1 : seqStep 1 ([], 0, []) 0 = ([0], 0, [0]) := by
      rw [seqStep_none 1 ([], 0, []) 0 hA1]
      norm_num [recordTimestamp]
    have hp2 : pruneQ ((0 : ℚ) + 0) [0] = [0] := by
      unfold pruneQ
      rw [List.dropWhile_cons_of_neg (by norm_num)]
    have hA2 : acquireCheck 1 ((0 : ℚ) + 0) [0] = ([0], some (6001 / 100)) := by
      simp only [acquireCheck, hp2]
      norm_num
    have e2 : seqStep 1 ([0], 0, [0]) 0
        = ([0, 6001 / 100], 6001 / 100, [0, 6001 / 100]) := by
      rw [seqStep_some 1 ([0], 0, [0]) 0 hA2]
      norm_num [recordTimestamp]
    show (List.foldl (seqStep 1) ([], 0, []) [0, 0]).1 = [0, 6001 / 100]
    rw [List.foldl_cons, e1, List.foldl_cons, e2, List.foldl_nil]

theorem dropWhile_sorted_eq_filter (a : ℚ) :
    ∀ (l : List ℚ), List.Pairwise (fun x y => x ≤ y) l →
      l.dropWhile (fun ts => decide (60 < a - ts))
        = l.filter (fun ts => decide (a - 60 ≤ ts)) := by
  intro l
  induction l with
  | nil => intro _; rfl
  | cons x t ih =>
    intro hp
    rcases List.pairwise_cons.mp hp with ⟨hx, ht⟩
    by_cases hcut : 60 < a - x
    · rw [List.dropWhile_cons_of_pos (by simpa using hcut),
        List.filter_cons_of_neg (by simp only [decide_eq_true_eq]; linarith)]
      exact ih ht
    · rw [List.dropWhile_cons_of_neg (by simpa using hcut),
        List.filter_cons_of_pos (by simp only [decide_eq_true_eq]; linarith)]
      congr 1
      symm
      rw [List.filter_eq_self]
      intro b hb
      simp only [decide_eq_true_eq]
      have := hx b hb
      linarith

theorem pruneQ_filter {T : List ℚ} {L c now : ℚ}
    (hsort : List.Pairwise (fun a b => a ≤ b) T) (hc : c ≤ L - 60)
    (hL : ∀ t ∈ T, t ≤ L) (hnow : L ≤ now) :
    pruneQ now (T.filter (fun ts => decide (c ≤ ts)))
      = T.filter (fun ts => decide (now - 60 ≤ ts)) := by
  unfold pruneQ
  rw [dropWhile_sorted_eq_filter now _ (hsort.filter _), List.filter_filter]
  apply List.filter_congr
  intro x _
  by_cases h : now - 60 ≤ x
  · have h2 : c ≤ x := by linarith
    simp [h, h2]
  · simp [h]

theorem filter_sorted_suffix {P : ℚ → Bool}
    (hmono : ∀ x y : ℚ, x ≤ y → P x = true → P y = true) :
    ∀ (l : List ℚ), List.Pairwise (fun a b => a ≤ b) l →
      ∃ k, k ≤ l.length ∧ l.filter P = l.drop k := by
  intro l
  induction l with
  | nil => exact fun _ => ⟨0, by simp⟩
  | cons x t ih =>
    intro hp
    rcases List.pairwise_cons.mp hp with ⟨hx, ht⟩
    by_cases hPx : P x = true
    · refine ⟨0, by simp, ?_⟩
      rw [List.filter_cons_of_pos hPx, List.drop_zero]
      congr 1
      rw [List.filter_eq_self]
      exact fun b hb => hmono x b (hx b hb) hPx
    · rcases ih ht with ⟨k, hk, hfk⟩
      refine ⟨k + 1, by simp only [List.length_cons]; omega, ?_⟩
      rw [List.filter_cons_of_neg hPx, hfk]
      rfl

theorem mem_drop_ge {l : List ℚ} (hs : List.Pairwise (fun a b => a ≤ b) l)
    {k : ℕ} (hk : k < l.length) : ∀ y ∈ l.drop k, l[k] ≤ y := by
  intro y hy
  rcases List.mem_iff_get.mp hy with ⟨⟨j, hj⟩, hget⟩
  have hj2 : j < (l.drop k).length := hj
  have hkj : k + j < l.length := by
    rw [List.length_drop] at hj2
    omega
  have hdg : (l.drop k)[j] = l[k + j] := List.getElem_drop l
  have hgv : (l.drop k).get ⟨j, hj⟩ = (l.drop k)[j] := rfl
  rw [← hget, hgv, hdg]
  rcases Nat.eq_zero_or_pos j with hj0 | hj0
  · subst hj0
    simp
  · exact List.pairwise_iff_getElem.mp hs k (k + j) hk hkj (by omega)

theorem gapOk_tail {per_minute : Nat} {x : ℚ} {t : List ℚ}
    (hg : GapOk per_minute (x :: t)) : GapOk per_minute t := by
  intro i h
  have h2 : (i + per_minute) + 1 < (x :: t).length := by
    simp only [List.length_cons]
    omega
  have h2b : (i + 1) + per_minute < (x :: t).length := by omega
  have h3 := hg (i + 1) h2b
  have e1 : (x :: t)[i + 1] = t[i] :=
    List.getElem_cons_succ x t i (by simp only [List.length_cons]; omega)
  have hidx : i + 1 + per_minute = i + per_minute + 1 := by omega
  have e2 : (x :: t)[i + 1 + per_minute] = t[i + per_minute] := by
    simp only [Nat.add_right_comm i 1 per_minute]
    exact List.getElem_cons_succ x t (i + per_minute) h2
  rw [e1, e2] at h3
  exact h3

theorem gap_window_bound {per_minute : Nat} :
    ∀ (T : List ℚ), List.Pairwise (fun a b => a ≤ b) T → GapOk per_minute T →
      ∀ w : ℚ, (T.filter (fun t => decide (w ≤ t) && decide (t ≤ w + 60))).length
        ≤ per_minute := by
  intro T
  induction T with
  | nil => intro _ _ w; simp
  | cons x t ih =>
    intro hs hg w
    have hgt : GapOk per_minute t := gapOk_tail hg
    rcases List.pairwise_cons.mp hs with ⟨hx, ht⟩
    by_cases hpx : (decide (w ≤ x) && decide (x ≤ w + 60)) = true
    · rcases Nat.eq_zero_or_pos per_minute with hN0 | hNpos
      · subst hN0
        have h0 : 0 + 0 < (x :: t).length := by simp
        have := hg 0 h0
        simp at this
        linarith
      · obtain ⟨N1, rfl⟩ : ∃ N1, per_minute = N1 + 1 :=
          ⟨per_minute - 1, by omega⟩
        rw [@List.filter_cons_of_pos _
          (fun y => decide (w ≤ y) && decide (y ≤ w + 60)) x t hpx]
        simp only [List.length_cons]
        have hwx : w ≤ x := by
          simp only [Bool.and_eq_true, decide_eq_true_eq] at hpx
          exact hpx.1
        have htail : ∀ y ∈ t.drop N1,
            (decide (w ≤ y) && decide (y ≤ w + 60)) = false := by
          intro y hy
          have hlen : N1 < t.length := by
            by_contra hcon
            push_neg at hcon
            rw [List.drop_eq_nil_of_le hcon] at hy
            simp at hy
          have h1 : t[N1] ≤ y := mem_drop_ge ht hlen y hy
          have h2 : 0 + (N1 + 1) < (x :: t).length := by
            simp only [List.length_cons]
            omega
          have h3 := hg 0 h2
          simp only [Nat.zero_add] at h3
          rw [List.getElem_cons_succ x t N1 (by simp only [List.length_cons]; omega)] at h3
          have h4 : x + 60 < t[N1] := by
            have e0 : (x :: t)[0] = x := rfl
            rw [e0] at h3
            exact h3
          have hy2 : ¬(y ≤ w + 60) := by linarith
          simp [hy2]
        have hsplit : t.filter (fun y => decide (w ≤ y) && decide (y ≤ w + 60))
            = (t.take N1).filter (fun y => decide (w ≤ y) && decide (y ≤ w + 60))
              ++ (t.drop N1).filter (fun y => decide (w ≤ y) && decide (y ≤ w + 60)) := by
          rw [← List.filter_append, List.take_append_drop]
        have hnil : (t.drop N1).filter
            (fun y => decide (w ≤ y) && decide (y ≤ w + 60)) = [] := by
          rw [List.filter_eq_nil]
          intro a ha
          rw [htail a ha]
          simp
        rw [hsplit, hnil, List.append_nil]
        have hle := List.length_filter_le
          (fun y => decide (w ≤ y) && decide (y ≤ w + 60)) (t.take N1)
        have hlt : (t.take N1).length ≤ N1 := by simp
        omega
    · rw [@List.filter_cons_of_neg _
        (fun y => decide (w ≤ y) && decide (y ≤ w + 60)) x t hpx]
      exact ih ht hgt w

theorem seqStep_inv {per_minute : Nat} (hN : 1 ≤ per_minute)
    (T : List ℚ) (L : ℚ) (dq : List ℚ) (d : ℚ) (hd : 0 ≤ d)
    (hinv : SeqInv per_minute (T, L, dq)) :
    SeqInv per_minute (seqStep per_minute (T, L, dq) d) := by
  obtain ⟨hsort, hmem, ⟨c, hc, hdq⟩, hgap⟩ := hinv
  have hLnow : L ≤ L + d := by linarith
  have hprune : pruneQ (L + d) dq
      = T.filter (fun ts => decide ((L + d) - 60 ≤ ts)) := by
    rw [show dq = T.filter (fun ts => decide (c ≤ ts)) from hdq]
    exact pruneQ_filter hsort hc hmem hLnow
  by_cases hbr : per_minute ≤ (pruneQ (L + d) dq).length
  · -- over budget: the caller sleeps and completes at the wake-up time
    have hbr2 : per_minute ≤ (T.filter (fun ts => decide ((L + d) - 60 ≤ ts))).length := by
      rw [← hprune]; exact hbr
    have hmono : ∀ x y : ℚ, x ≤ y →
        (fun ts => decide ((L + d) - 60 ≤ ts)) x = true →
        (fun ts => decide ((L + d) - 60 ≤ ts)) y = true := by
      intro x y hxy hx
      simp only [decide_eq_true_eq] at hx ⊢
      linarith
    obtain ⟨k, hkle, hkeq⟩ := filter_sorted_suffix hmono T hsort
    have hlenf : (T.filter (fun ts => decide ((L + d) - 60 ≤ ts))).length
        = T.length - k := by rw [hkeq, List.length_drop]
    have hkper : k + per_minute ≤ T.length := by omega
    have hk : k < T.length := by omega
    have hexact : T.length - k = per_minute := by
      by_contra hne
      have hklt : k + per_minute < T.length := by omega
      have hgapk := hgap k hklt
      have hTk : (L + d) - 60 ≤ T[k] := by
        have hmm : T[k] ∈ T.filter (fun ts => decide ((L + d) - 60 ≤ ts)) := by
          rw [hkeq, List.drop_eq_getElem_cons hk]
          exact List.mem_cons_self _ _
        have := List.mem_filter.mp hmm
        simpa using this.2
      have hup : T[k + per_minute] ≤ L := hmem _ (List.getElem_mem hklt)
      linarith
    have hheadF : (T.filter (fun ts => decide ((L + d) - 60 ≤ ts))).headD 0 = T[k] := by
      rw [hkeq, List.drop_eq_getElem_cons hk]
      rfl
    have hA : acquireCheck per_minute (L + d) dq
        = (T.filter (fun ts => decide ((L + d) - 60 ≤ ts)),
           some ((L + d) + (60 - ((L + d) - T[k])) + 1 / 100)) := by
      simp only [acquireCheck, hprune]
      rw [if_pos hbr2, hheadF]
    have hTk2 : (L + d) - 60 ≤ T[k] := by
      have hmm : T[k] ∈ T.filter (fun ts => decide ((L + d) - 60 ≤ ts)) := by
        rw [hkeq, List.drop_eq_getElem_cons hk]
        exact List.mem_cons_self _ _
      have := List.mem_filter.mp hmm
      simpa using this.2
    rw [seqStep_some per_minute (T, L, dq) d hA]
    have wake_eq : (L + d) + (60 - ((L + d) - T[k])) + 1 / 100
        = T[k] + 60 + 1 / 100 := by ring
    rw [wake_eq]
    have hwake_ge : L + d ≤ T[k] + 60 + 1 / 100 := by linarith
    refine ⟨?_, ?_, ⟨(L + d) - 60, ?_, ?_⟩, ?_⟩
    · rw [List.pairwise_append]
      refine ⟨hsort, List.pairwise_singleton _ _, ?_⟩
      intro a ha b hb
      rw [List.mem_singleton] at hb
      subst hb
      have := hmem a ha
      linarith
    · intro x hx
      rcases List.mem_append.mp hx with hx1 | hx1
      · have := hmem x hx1
        show x ≤ T[k] + 60 + 1 / 100
        linarith
      · rw [List.mem_singleton] at hx1
        subst hx1
        exact le_refl _
    · show (L + d) - 60 ≤ (T[k] + 60 + 1 / 100) - 60
      linarith
    · show recordTimestamp (T.filter (fun ts => decide ((L + d) - 60 ≤ ts)))
          (T[k] + 60 + 1 / 100)
        = (T ++ [T[k] + 60 + 1 / 100]).filter (fun ts => decide ((L + d) - 60 ≤ ts))
      unfold recordTimestamp
      rw [List.filter_append]
      congr 1
      rw [List.filter_cons_of_pos (by simp only [decide_eq_true_eq]; linarith)]
      rfl
    · intro i h
      have hlen2 : i + per_minute < T.length + 1 := by
        simpa using h
      have hiLA : i + per_minute < (T ++ [T[k] + 60 + 1 / 100]).length := by
        simp only [List.length_append, List.length_singleton]
        omega
      have hiA : i < (T ++ [T[k] + 60 + 1 / 100]).length := by
        simp only [List.length_append, List.length_singleton]
        omega
      by_cases hlt : i + per_minute < T.length
      · have hiT : i < T.length := by omega
        have e1 : (T ++ [T[k] + 60 + 1 / 100])[i] = T[i] :=
          List.getElem_append_left hiT
        have e2 : (T ++ [T[k] + 60 + 1 / 100])[i + per_minute] = T[i + per_minute] :=
          List.getElem_append_left hlt
        rw [e1, e2]
        exact hgap i hlt
      · have heq : i + per_minute = T.length := by omega
        have hik : k = i := by omega
        subst hik
        have e1 : (T ++ [T[k] + 60 + 1 / 100])[k] = T[k] :=
          List.getElem_append_left hk
        have e2 : (T ++ [T[k] + 60 + 1 / 100])[k + per_minute]
            = T[k] + 60 + 1 / 100 := by
          rw [List.getElem_append_right (by omega)]
          have h0 : k + per_minute - T.length = 0 := by omega
          simp [h0]
        rw [e1, e2]
        linarith
  · -- under budget: the caller completes immediately at the current time
    have hA : acquireCheck per_minute (L + d) dq = (pruneQ (L + d) dq, none) := by
      simp only [acquireCheck]
      rw [if_neg hbr]
    rw [seqStep_none per_minute (T, L, dq) d hA]
    push_neg at hbr
    rw [hprune] at hbr
    refine ⟨?_, ?_, ⟨(L + d) - 60, ?_, ?_⟩, ?_⟩
    · rw [List.pairwise_append]
      refine ⟨hsort, List.pairwise_singleton _ _, ?_⟩
      intro a ha b hb
      rw [List.mem_singleton] at hb
      subst hb
      exact le_trans (hmem a ha) hLnow
    · intro x hx
      rcases List.mem_append.mp hx with hx1 | hx1
      · exact le_trans (hmem x hx1) hLnow
      · rw [List.mem_singleton] at hx1
        subst hx1
        exact le_refl _
    · show (L + d) - 60 ≤ (L + d) - 60
      exact le_refl _
    · show recordTimestamp (pruneQ (L + d) dq) (L + d)
          = (T ++ [L + d]).filter (fun ts => decide ((L + d) - 60 ≤ ts))
      unfold recordTimestamp
      rw [hprune, List.filter_append]
      congr 1
      rw [List.filter_cons_of_pos (by simp only [decide_eq_true_eq]; linarith)]
      rfl
    · intro i h
      have hlen2 : i + per_minute < T.length + 1 := by
        simpa using h
      have hiLA : i + per_minute < (T ++ [L + d]).length := by
        simp only [List.length_append, List.length_singleton]
        omega
      have hiA : i < (T ++ [L + d]).length := by
        simp only [List.length_append, List.length_singleton]
        omega
      by_cases hlt : i + per_minute < T.length
      · have hiT : i < T.length := by omega
        have e1 : (T ++ [L + d])[i] = T[i] := List.getElem_append_left hiT
        have e2 : (T ++ [L + d])[i + per_minute] = T[i + per_minute] :=
          List.getElem_append_left hlt
        rw [e1, e2]
        exact hgap i hlt
      · have heq : i + per_minute = T.length := by omega
        have hi : i < T.length := by omega
        have e1 : (T ++ [L + d])[i] = T[i] := List.getElem_append_left hi
        have e2 : (T ++ [L + d])[i + per_minute] = L + d := by
          rw [List.getElem_append_right (by omega)]
          have h0 : i + per_minute - T.length = 0 := by omega
          simp [h0]
        rw [e1, e2]
        by_contra hcon
        push_neg at hcon
        have hall : ∀ y ∈ T.drop i,
            (fun ts => decide ((L + d) - 60 ≤ ts)) y = true := by
          intro y hy
          simp only [decide_eq_true_eq]
          have := mem_drop_ge hsort hi y hy
          linarith
        have hdropc : ((T.drop i).filter
            (fun ts => decide ((L + d) - 60 ≤ ts))).length = per_minute := by
          rw [List.filter_eq_self.mpr hall, List.length_drop]
          omega
        have hsplitT : T.filter (fun ts => decide ((L + d) - 60 ≤ ts))
            = (T.take i).filter (fun ts => decide ((L + d) - 60 ≤ ts))
              ++ (T.drop i).filter (fun ts => decide ((L + d) - 60 ≤ ts)) := by
          rw [← List.filter_append, List.take_append_drop]
        have hge : per_minute ≤ (T.filter
            (fun ts => decide ((L + d) - 60 ≤ ts))).length := by
          rw [hsplitT]
          simp only [List.length_append]
          omega
        omega

theorem seqRun_inv {per_minute : Nat} (hN : 1 ≤ per_minute) :
    ∀ (delays : List ℚ), (∀ x ∈ delays, 0 ≤ x) →
      ∀ st, SeqInv per_minute st →
        SeqInv per_minute (delays.foldl (seqStep per_minute) st) := by
  intro delays
  induction delays with
  | nil => intro _ st h; exact h
  | cons d t ih =>
    intro hd st h
    rw [List.foldl_cons]
    apply ih (fun x hx => hd x (List.mem_cons_of_mem d hx))
    obtain ⟨T, L, dq⟩ := st
    exact seqStep_inv hN T L dq d (hd d (List.mem_cons_self d t)) h

theorem seqInv_init (per_minute : Nat) : SeqInv per_minute ([], 0, []) := by
  refine ⟨List.Pairwise.nil, by simp, ⟨-60, by norm_num, rfl⟩, ?_⟩
  intro i h
  simp at h

/-- C7 counterexample: under cooperative interleaving the bound fails.
With budget 1, caller A completes at time 0 (its check and append are
atomic).  Callers B (at 0.5) and C (at 1) both run the check before
either has appended: both see the deque `[0]`, both compute the wake
time 60.01, and both append on waking.  The recorded completions
`[0, 60.01, 60.01]` put two completions inside the rolling window
`[0.01, 60.01]`, exceeding the budget of 1: the post-sleep append never
re-checks the budget. -/
theorem C7_counterexample :
    (acquireCheck 1 0 []).2 = none
    ∧ (acquireCheck 1 (1 / 2) (recordTimestamp [] 0)).2 = some (6001 / 100)
    ∧ (acquireCheck 1 1 (recordTimestamp [] 0)).2 = some (6001 / 100)
    ∧ ((recordTimestamp (recordTimestamp (recordTimestamp [] 0) (6001 / 100))
          (6001 / 100)).filter
        (fun t => decide ((1 : ℚ) / 100 ≤ t) && decide (t ≤ (1 : ℚ) / 100 + 60))).length
      = 2
    ∧ 1 < 2 := by
  refine ⟨rfl, ?_, ?_, ?_, by norm_num⟩
  · have hp : pruneQ ((1 : ℚ) / 2) [0] = [0] := by
      unfold pruneQ
      rw [List.dropWhile_cons_of_neg (by norm_num)]
    show (acquireCheck 1 ((1 : ℚ) / 2) [0]).2 = some (6001 / 100)
    simp only [acquireCheck, hp]
    norm_num
  · have hp : pruneQ (1 : ℚ) [0] = [0] := by
      unfold pruneQ
      rw [List.dropWhile_cons_of_neg (by norm_num)]
    show (acquireCheck 1 (1 : ℚ) [0]).2 = some (6001 / 100)
    simp only [acquireCheck, hp]
    norm_num
  · show (([(0 : ℚ), 6001 / 100, 6001 / 100]).filter
        (fun t => decide ((1 : ℚ) / 100 ≤ t) && decide (t ≤ (1 : ℚ) / 100 + 60))).length
      = 2
    rw [List.filter_cons_of_neg (by norm_num),
      List.filter_cons_of_pos (by norm_num),
      List.filter_cons_of_pos (by norm_num)]
    rfl

/-- C7 amended: for sequential callers — each `acquire` issued only
after the previous one completed, with clock delays `≥ 0` — a limiter
with budget `per_minute ≥ 1` (every instance, by the `max(1,·)` clamp)
admits at most `per_minute` completions in any rolling 60-second
window.  Interleaved waiters can exceed the bound (see the
counterexample) because the post-sleep append does not re-check the
budget. -/
theorem C7_sequential_window_bound (per_minute : Nat) (hN : 1 ≤ per_minute)
    (delays : List ℚ) (hd : ∀ x ∈ delays, 0 ≤ x) (w : ℚ) :
    ((seqCompletions per_minute delays).filter
        (fun t => decide (w ≤ t) && decide (t ≤ w + 60))).length ≤ per_minute := by
  have hinv := seqRun_inv hN delays hd ([], 0, []) (seqInv_init per_minute)
  exact gap_window_bound _ hinv.1 hinv.2.2.2 w

/-- Witness for C7: the sequential bound at budget 1 with two
back-to-back calls and the window starting at 0. -/
theorem C7_witness :
    ((seqCompletions 1 [0, 0]).filter
        (fun t => decide ((0 : ℚ) ≤ t) && decide (t ≤ (0 : ℚ) + 60))).length ≤ 1 :=
  C7_sequential_window_bound 1 (le_refl 1) [0, 0] (by norm_num) 0

end Scraper
